import Mathlib

/-!
Verification development for the PII redaction backend.

Shallow embedding of the core algorithms of the repository:
  * `backend/app/engines/entity_merger.py`      (EntityMerger)
  * `backend/app/engines/redaction_engine.py`   (RedactionEngine)
  * `backend/app/engines/verification_engine.py`(VerificationEngine)
  * `backend/app/engines/audio_redactor.py`     (AudioRedactor)

Modelling conventions:
  * Python `float` confidences and timestamps are modelled as exact
    rationals (`ℚ`).
  * Python `str` text that is sliced by character index is modelled as
    `List Char`; identifier-like strings (entity types, source tags,
    strategy names) stay `String`.
  * Python dict-shaped entities are modelled by a record carrying the
    keys the data model guarantees (`entity_type`, `value`, `start`,
    `end`, `confidence`, `source`, optional `redacted_value`), so
    `e.get(k, default)` coincides with field access.
  * Python's stable `list.sort(key=...)` is modelled by a stable
    insertion sort `sortBy` over a total preorder.
  * Stateful collaborators (the Faker generators behind `anonymize`,
    the sha256 digest behind `hash`, and the detector engines consumed
    by the verifier) are passed in as explicit oracle functions with
    explicit state, exactly as they cross the documented interfaces.
-/

/-- Stable insertion of `a` into `l`: `a` goes before the first element
`b` with `le a b`, hence before strictly greater elements and before no
equal element that was already present later -- matching the stability
contract of Python's sort. -/
def insertSorted {α : Type} (le : α → α → Prop) [DecidableRel le] (a : α) :
    List α → List α
  | [] => [a]
  | b :: bs => if le a b then a :: b :: bs else b :: insertSorted le a bs

/-- Stable insertion sort, the model of Python's `list.sort(key=...)`. -/
def sortBy {α : Type} (le : α → α → Prop) [DecidableRel le] : List α → List α
  | [] => []
  | a :: as => insertSorted le a (sortBy le as)

/-- Entity record: the dict shape produced by the detectors and consumed
by every engine.  Python's `end` key is a Lean keyword and is called
`stop` here. -/
structure Entity where
  entity_type : String
  value : List Char
  start : Nat
  stop : Nat
  confidence : ℚ
  source : String
  redacted_value : Option (List Char) := none
deriving DecidableEq, Repr

namespace EntityMerger

/-- Boost factor when multiple engines agree (`MULTI_SOURCE_BOOST`). -/
def MULTI_SOURCE_BOOST : ℚ := 1/10

/-- Overlap ratio between two entities (`_calculate_overlap`). -/
def calculate_overlap (e1 e2 : Entity) : ℚ :=
  let s := max e1.start e2.start
  let e := min e1.stop e2.stop
  if e ≤ s then 0
  else
    let overlap_len := e - s
    let min_len := min (e1.stop - e1.start) (e2.stop - e2.start)
    if min_len = 0 then 0 else (overlap_len : ℚ) / (min_len : ℚ)

/-- Merge two overlapping entities (`_merge_two`): base attributes from
the higher-confidence entity (ties favour `e1`), span is the union, and
a capped confidence boost plus source-tag concatenation apply only when
the sources differ. -/
def merge_two (e1 e2 : Entity) : Entity :=
  let base := if e2.confidence ≤ e1.confidence then e1 else e2
  let merged := { base with start := min e1.start e2.start,
                            stop := max e1.stop e2.stop }
  if e1.source ≠ e2.source then
    { merged with confidence := min (base.confidence + MULTI_SOURCE_BOOST) 1,
                  source := e1.source ++ "+" ++ e2.source }
  else merged

/-- One step of the overlap scan: replace the first existing merged item
whose overlap ratio with the candidate exceeds 0.5, else append the
candidate (the inner loop of `_merge_overlaps`). -/
def mergeInto : List Entity → Entity → List Entity
  | [], e => [e]
  | x :: xs, e =>
    if 1/2 < calculate_overlap e x then merge_two x e :: xs
    else x :: mergeInto xs e

/-- Linear scan accumulating a merged list (`_merge_overlaps`). -/
def merge_overlaps (entities : List Entity) : List Entity :=
  entities.foldl mergeInto []

/-- Sort key of the initial sort: `(start, -confidence)`. -/
def leKey (a b : Entity) : Prop :=
  a.start < b.start ∨ (a.start = b.start ∧ b.confidence ≤ a.confidence)

instance : DecidableRel leKey := fun a b =>
  inferInstanceAs (Decidable (a.start < b.start ∨
    (a.start = b.start ∧ b.confidence ≤ a.confidence)))

/-- Sort key of the final sort: `start` ascending. -/
def leStart (a b : Entity) : Prop := a.start ≤ b.start

instance : DecidableRel leStart := fun a b =>
  inferInstanceAs (Decidable (a.start ≤ b.start))

/-- Final confidence clamp: `min(confidence, 1.0)`. -/
def clampConf (e : Entity) : Entity :=
  { e with confidence := min e.confidence 1 }

/-- Body of `EntityMerger.merge` after flattening the input lists. -/
def mergeAll (all_entities : List Entity) : List Entity :=
  if all_entities = [] then []
  else
    sortBy leStart ((merge_overlaps (sortBy leKey all_entities)).map clampConf)

/-- `EntityMerger.merge`: flatten the variadic entity lists, sort by
`(start, -confidence)`, resolve overlaps, clamp confidences, and return
sorted by `start`. -/
def merge (entity_lists : List (List Entity)) : List Entity :=
  mergeAll entity_lists.flatten

end EntityMerger

namespace RedactionEngine

/-- The block mask character (`MASK_CHAR`). -/
def MASK_CHAR : Char := '█'

/-- The per-instance anonymization cache (`self._anonymization_cache`),
an association from the Python cache key string to the stored synthetic
value. -/
def Cache : Type := List (List Char × List Char)

instance : DecidableEq Cache := inferInstanceAs (DecidableEq (List _))

/-- `_mask`: block characters, one per character of the value. -/
def mask (entity : Entity) : List Char :=
  List.replicate entity.value.length MASK_CHAR

/-- `_tag_replace`: the bracketed semantic type tag. -/
def tag_replace (entity : Entity) : List Char :=
  '[' :: entity.entity_type.toList ++ [']']

/-- `_hash`: the truncated sha256 digest wrapped in `#` markers.  The
digest itself is external cryptography (`hashlib`), passed in as the
oracle `hashFn`. -/
def hashTag (hashFn : List Char → List Char) (entity : Entity) : List Char :=
  '#' :: hashFn entity.value ++ ['#']

/-- The Python cache key `f"{entity_type}:{value}"`. -/
def cacheKey (entity : Entity) : List Char :=
  entity.entity_type.toList ++ ':' :: entity.value

/-- The fallback tag `f"[ANON_{entity_type}]"`, used when no generator
exists for the type or the generator raises. -/
def anonFallback (entity : Entity) : List Char :=
  "[ANON_".toList ++ entity.entity_type.toList ++ [']']

/-- `_anonymize`: look up the per-run cache keyed by
`(entity_type, value)`; on a miss consult the stateful Faker oracle
(state type `σ`; `none` covers both a missing generator and a caught
generator exception), store the synthetic value, and return it. -/
def anonymize {σ : Type} (oracle : String → σ → Option (List Char) × σ)
    (entity : Entity) (cache : Cache) (g : σ) : List Char × Cache × σ :=
  let key := cacheKey entity
  match cache.lookup key with
  | some v => (v, cache, g)
  | none =>
    let res := oracle entity.entity_type g
    let synthetic := match res.1 with
      | some s => s
      | none => anonFallback entity
    (synthetic, (key, synthetic) :: cache, res.2)

/-- The strategy table lookup with `mask` as the default
(`{...}.get(strategy, self._mask)`), threading the cache and the
generator state. -/
def applyStrategy {σ : Type} (oracle : String → σ → Option (List Char) × σ)
    (hashFn : List Char → List Char) (strategy : String) (entity : Entity)
    (cache : Cache) (g : σ) : List Char × Cache × σ :=
  if strategy = "mask" then (mask entity, cache, g)
  else if strategy = "tag_replace" then (tag_replace entity, cache, g)
  else if strategy = "anonymize" then anonymize oracle entity cache g
  else if strategy = "hash" then (hashTag hashFn entity, cache, g)
  else (mask entity, cache, g)

/-- One iteration of the substitution loop in `redact`: compute the
replacement, attach `redacted_value` to a copy of the entity, splice the
replacement into the working text, and append the copy. -/
def redactStep {σ : Type} (oracle : String → σ → Option (List Char) × σ)
    (hashFn : List Char → List Char) (strategy : String)
    (st : List Char × List Entity × Cache × σ) (entity : Entity) :
    List Char × List Entity × Cache × σ :=
  let res := applyStrategy oracle hashFn strategy entity st.2.2.1 st.2.2.2
  let entity_copy := { entity with redacted_value := some res.1 }
  (st.1.take entity.start ++ res.1 ++ st.1.drop entity.stop,
   st.2.1 ++ [entity_copy], res.2.1, res.2.2)

/-- Descending sort key used by `redact`: `start` descending; Python's
stable `sorted(..., reverse=True)` keeps the original order of ties. -/
def geStart (a b : Entity) : Prop := b.start ≤ a.start

instance : DecidableRel geStart := fun a b =>
  inferInstanceAs (Decidable (b.start ≤ a.start))

/-- `RedactionEngine.redact`: sort entities by `start` descending,
substitute replacements right-to-left, and reverse the updated entity
list back to ascending order. -/
def redact {σ : Type} (oracle : String → σ → Option (List Char) × σ)
    (hashFn : List Char → List Char) (text : List Char)
    (entities : List Entity) (strategy : String) (cache : Cache) (g : σ) :
    List Char × List Entity × Cache × σ :=
  if entities = [] then (text, entities, cache, g)
  else
    let sorted_entities := sortBy geStart entities
    let res :=
      sorted_entities.foldl (redactStep oracle hashFn strategy) (text, [], cache, g)
    (res.1, res.2.1.reverse, res.2.2.1, res.2.2.2)

/-- `clear_cache`: empty the anonymization cache. -/
def clear_cache (_cache : Cache) : Cache := []

end RedactionEngine

namespace VerificationEngine

/-- The fixed-width context window around an entity used by the artifact
check: `text[max(0, start-5) : min(len(text), end+5)]` (natural-number
subtraction is exactly `max(0, start-5)`). -/
def contextWindow (entity : Entity) (text : List Char) : List Char :=
  let context_start := entity.start - 5
  let context_end := min text.length (entity.stop + 5)
  (text.drop context_start).take (context_end - context_start)

/-- `_is_redaction_artifact`: a candidate is an artifact if its value is
bracket-wrapped, entirely mask characters, hash-marker-wrapped, or its
context window contains both `[` and `]`. -/
def is_redaction_artifact (entity : Entity) (text : List Char) : Bool :=
  (entity.value.head? == some '[' && entity.value.getLast? == some ']') ||
  entity.value.all (fun c => c == '█') ||
  (entity.value.head? == some '#' && entity.value.getLast? == some '#') ||
  (let context := contextWindow entity text
   context.contains '[' && context.contains ']')

/-- The verification result dict. -/
structure VerificationResult where
  passed : Bool
  residual_entities : List Entity
  scan_count : Nat
  confidence : ℚ
deriving DecidableEq, Repr

/-- The result as initialized at the top of `verify`. -/
def initResult : VerificationResult :=
  { passed := true, residual_entities := [], scan_count := 0, confidence := 1 }

/-- One scan: run the regex detector, the NLP detector when available
(`none` models an absent or unavailable engine), and drop redaction
artifacts from both. -/
def residualScan (rdetect : List Char → List Entity)
    (ndetect : Option (List Char → List Entity)) (text : List Char) :
    List Entity :=
  let real_entities :=
    (rdetect text).filter (fun e => !(is_redaction_artifact e text))
  let nlp_entities := match ndetect with
    | some f => (f text).filter (fun e => !(is_redaction_artifact e text))
    | none => []
  real_entities ++ nlp_entities

/-- The retry loop of `verify`: `fuel` counts remaining attempts,
`attempt` the 0-based index of the next attempt.  A scan with no
residual findings breaks out with `passed=true, confidence=1`; otherwise
the failing result is recorded and the loop continues. -/
def verifyAux (rdetect : List Char → List Entity)
    (ndetect : Option (List Char → List Entity)) (text : List Char) :
    Nat → Nat → VerificationResult → VerificationResult
  | 0, _, result => result
  | fuel + 1, attempt, result =>
    if residualScan rdetect ndetect text = [] then
      { result with scan_count := attempt + 1, passed := true, confidence := 1 }
    else
      verifyAux rdetect ndetect text fuel (attempt + 1)
        { result with
            scan_count := attempt + 1,
            passed := false,
            residual_entities := residualScan rdetect ndetect text,
            confidence := max 0
              (1 - ((residualScan rdetect ndetect text).length : ℚ) * (1/10)) }

/-- `VerificationEngine.verify`. -/
def verify (rdetect : List Char → List Entity)
    (ndetect : Option (List Char → List Entity)) (redacted_text : List Char)
    (max_retries : Nat := 2) : VerificationResult :=
  verifyAux rdetect ndetect redacted_text max_retries 0 initResult

end VerificationEngine

namespace AudioRedactor

/-- A transcribed word with its timing in seconds, as extracted from the
transcriber's word-level timestamps. -/
structure Word where
  word : List Char
  start : ℚ
  stop : ℚ
deriving DecidableEq, Repr

/-- A projected audio segment (`start_ms`/`end_ms` dict produced by
`_map_pii_to_timestamps`). -/
structure Seg where
  entity_type : String
  value : List Char
  confidence : ℚ
  start_ms : ℚ
  end_ms : ℚ
deriving DecidableEq, Repr

/-- Helper for `str.find(sub, offset)`: first index `≥ i` in the
remaining text at which `pat` occurs as a prefix. -/
def findAux (pat : List Char) : List Char → Nat → Option Nat
  | [], i => if pat = [] then some i else none
  | c :: t, i => if pat.isPrefixOf (c :: t) then some i else findAux pat t (i + 1)

/-- `full_text.find(word_text, current_offset)` (`None` models `-1`). -/
def findFrom (text pat : List Char) (offset : Nat) : Option Nat :=
  if text.length < offset then none else findAux pat (text.drop offset) offset

/-- The inner word scan of `_map_pii_to_timestamps`: walk the word list,
greedily locating each word in the full text starting at the offset
just past the previous located word; collect the words whose character
span overlaps the entity span `[estart, estop)`.  A word not found is
skipped without advancing the offset. -/
def matchedWords (full_text : List Char) (estart estop : Nat) :
    List Word → Nat → List Word
  | [], _ => []
  | w :: ws, current_offset =>
    match findFrom full_text w.word current_offset with
    | none => matchedWords full_text estart estop ws current_offset
    | some word_pos =>
      let word_end := word_pos + w.word.length
      let rest := matchedWords full_text estart estop ws word_end
      if word_pos < estop ∧ estart < word_end then w :: rest else rest

/-- The per-entity body of `_map_pii_to_timestamps`: no matched word
means no segment; otherwise the segment runs from the first matched
word's start to the last matched word's end (seconds scaled to ms). -/
def segOf (words : List Word) (full_text : List Char) (entity : Entity) :
    Option Seg :=
  match matchedWords full_text entity.start entity.stop words 0 with
  | [] => none
  | m :: rest =>
    some { entity_type := entity.entity_type, value := entity.value,
           confidence := entity.confidence,
           start_ms := m.start * 1000,
           end_ms := ((m :: rest).getLastD m).stop * 1000 }

/-- `_map_pii_to_timestamps`: one segment per entity that matched at
least one word, in entity order. -/
def map_pii_to_timestamps (entities : List Entity) (words : List Word)
    (full_text : List Char) : List Seg :=
  entities.filterMap (segOf words full_text)

/-- Merging one later segment into the current region: extend the end,
concatenate values with a comma-space and entity types with a comma. -/
def combineSeg (last seg : Seg) : Seg :=
  { last with end_ms := max last.end_ms seg.end_ms,
              value := last.value ++ ", ".toList ++ seg.value,
              entity_type := last.entity_type ++ "," ++ seg.entity_type }

/-- The scan of `_merge_overlapping` over the tail of the sorted
segment list, carrying the current last region. -/
def mergeRun (cur : Seg) : List Seg → List Seg
  | [] => [cur]
  | seg :: rest =>
    if seg.start_ms ≤ cur.end_ms then mergeRun (combineSeg cur seg) rest
    else cur :: mergeRun seg rest

/-- Ascending sort on `start_ms`. -/
def leStartMs (a b : Seg) : Prop := a.start_ms ≤ b.start_ms

instance : DecidableRel leStartMs := fun a b =>
  inferInstanceAs (Decidable (a.start_ms ≤ b.start_ms))

/-- `_merge_overlapping`: sort by `start_ms` and fuse every segment that
starts no later than the current region ends. -/
def merge_overlapping (segments : List Seg) : List Seg :=
  match sortBy leStartMs segments with
  | [] => []
  | s :: rest => mergeRun s rest

/-- Descending sort key on entity `start` used by the transcript
builder. -/
def geStartEnt (a b : Entity) : Prop := b.start ≤ a.start

instance : DecidableRel geStartEnt := fun a b =>
  inferInstanceAs (Decidable (b.start ≤ a.start))

/-- `_build_redacted_transcript`: replace every entity span in the
transcript text with its bracketed entity-type label, right to left. -/
def build_redacted_transcript (text : List Char) (entities : List Entity) :
    List Char :=
  (sortBy geStartEnt entities).foldl
    (fun result ent =>
      result.take ent.start ++ '[' :: ent.entity_type.toList ++ [']'] ++
        result.drop ent.stop)
    text

end AudioRedactor

section SampleData

open EntityMerger RedactionEngine VerificationEngine AudioRedactor

/-- Entity `[0,10)` of the idempotence counterexample input. -/
def cexA : Entity := ⟨"T", "a".toList, 0, 10, 9/10, "s", none⟩

/-- Entity `[5,15)` of the idempotence counterexample input. -/
def cexB : Entity := ⟨"T", "b".toList, 5, 15, 9/10, "s", none⟩

/-- Entity `[8,11)` of the idempotence counterexample input: it merges
into `[0,10)`, stretching it to `[0,11)`, which then overlaps `[5,15)`
by more than half without being re-checked. -/
def cexC : Entity := ⟨"T", "c".toList, 8, 11, 9/10, "s", none⟩

/-- A well-separated entity, for the idempotence witness. -/
def sepA : Entity := ⟨"A", "aaa".toList, 0, 3, 1/2, "regex", none⟩

/-- A second well-separated entity, for the idempotence witness. -/
def sepB : Entity := ⟨"B", "bbb".toList, 10, 13, 1/2, "regex", none⟩

/-- Regex-sourced tie entity of the order-sensitivity counterexample:
same span and same confidence as its NLP twin. -/
def tieRegex : Entity := ⟨"X", "x".toList, 0, 10, 9/10, "r", none⟩

/-- NLP-sourced tie entity of the order-sensitivity counterexample. -/
def tieNlp : Entity := ⟨"Y", "y".toList, 0, 10, 9/10, "n", none⟩

/-- Overlapping pair with distinct sort keys, for the order-insensitivity
witness. -/
def dkA : Entity := ⟨"A", "abc".toList, 0, 3, 1/2, "regex", none⟩

/-- Same span as `dkA` but a different confidence. -/
def dkB : Entity := ⟨"B", "abc".toList, 0, 3, 3/4, "nlp", none⟩

/-- The 0.6-confidence regex EMAIL detection of the boost scenario. -/
def regexEmail06 : Entity := ⟨"EMAIL", "a@b.com".toList, 0, 7, 6/10, "regex", none⟩

/-- The 0.7-confidence NLP EMAIL detection of the boost scenario. -/
def nlpEmail07 : Entity := ⟨"EMAIL", "a@b.com".toList, 0, 7, 7/10, "nlp", none⟩

/-- The 0.7-confidence detection re-tagged with the same source as
`regexEmail06`, for the no-boost half of the scenario. -/
def sameSrc07 : Entity := ⟨"EMAIL", "a@b.com".toList, 0, 7, 7/10, "regex", none⟩

/-- First EMAIL entity of the right-to-left substitution scenario. -/
def email1 : Entity := ⟨"EMAIL", "a@b.com".toList, 0, 7, 9/10, "regex", none⟩

/-- Second EMAIL entity of the right-to-left substitution scenario. -/
def email2 : Entity := ⟨"EMAIL", "c@d.com".toList, 12, 19, 9/10, "regex", none⟩

/-- A residual finding that is not a redaction artifact. -/
def residualEntity : Entity := ⟨"EMAIL", "x@y.z".toList, 0, 5, 9/10, "regex", none⟩

/-- A pathological detector that reports `residualEntity` on every scan. -/
def alwaysFinding : List Char → List Entity := fun _ => [residualEntity]

/-- Text scanned in the bounded-retries scenario. -/
def residualText : List Char := "x@y.z hello".toList

/-- A detection candidate that is exactly a tag-replacement artifact. -/
def artifactEntity : Entity := ⟨"EMAIL", "[EMAIL]".toList, 0, 7, 9/10, "regex", none⟩

/-- A detector that only ever reports the artifact candidate. -/
def artifactDetector : List Char → List Entity := fun _ => [artifactEntity]

/-- Text containing only the tag-replacement artifact. -/
def artifactText : List Char := "[EMAIL] hello".toList

/-- Projected audio segment `{100,200}` of the region-merge scenario. -/
def segA : Seg := ⟨"A", "v1".toList, 1/2, 100, 200⟩

/-- Projected audio segment `{180,300}` of the region-merge scenario. -/
def segB : Seg := ⟨"B", "v2".toList, 1/2, 180, 300⟩

/-- Transcribed word "hello" at 0.5s-1s. -/
def wordHello : Word := ⟨"hello".toList, 1/2, 1⟩

/-- Transcribed word "bob" at 1s-1.5s. -/
def wordBob : Word := ⟨"bob".toList, 1, 3/2⟩

/-- An entity whose character span matches no transcribed word. -/
def missEntity : Entity := ⟨"PHONE", "12345".toList, 20, 25, 1/2, "regex", none⟩

/-- An entity that does match a transcribed word. -/
def hitEntity : Entity := ⟨"PERSON_NAME", "bob".toList, 6, 9, 1/2, "nlp", none⟩

/-- The transcript text of the mapping-miss scenario. -/
def missText : List Char := "hello bob".toList

/-- A trivial Faker oracle over unit state, for the anonymize witness. -/
def unitOracle : String → Unit → Option (List Char) × Unit := fun _ g => (none, g)

/-- A trivial digest oracle, for the anonymize witness. -/
def unitHash : List Char → List Char := fun _ => "0123456789abcdef".toList

/-- A pre-populated anonymization cache binding. -/
def seededCache : RedactionEngine.Cache := [("K".toList, "V".toList)]

end SampleData

section SortLemmas

variable {α : Type} (le : α → α → Prop) [DecidableRel le]

theorem insertSorted_perm (a : α) (l : List α) :
    List.Perm (insertSorted le a l) (a :: l) := by
  induction l with
  | nil => exact List.Perm.refl _
  | cons b bs ih =>
    unfold insertSorted
    by_cases h : le a b
    · rw [if_pos h]
    · rw [if_neg h]
      exact (ih.cons b).trans (List.Perm.swap a b bs)

theorem sortBy_perm (l : List α) : List.Perm (sortBy le l) l := by
  induction l with
  | nil => exact List.Perm.refl _
  | cons a as ih =>
    unfold sortBy
    exact (insertSorted_perm le a (sortBy le as)).trans (ih.cons a)

theorem insertSorted_pairwise
    (htot : ∀ x y, le x y ∨ le y x)
    (htrans : ∀ x y z, le x y → le y z → le x z) (a : α) (l : List α)
    (h : l.Pairwise le) : (insertSorted le a l).Pairwise le := by
  induction l with
  | nil => simp [insertSorted]
  | cons b bs ih =>
    rw [List.pairwise_cons] at h
    obtain ⟨hb, hbs⟩ := h
    unfold insertSorted
    by_cases hab : le a b
    · rw [if_pos hab]
      refine List.Pairwise.cons ?_ (List.Pairwise.cons hb hbs)
      intro x hx
      rcases List.mem_cons.mp hx with rfl | hx'
      · exact hab
      · exact htrans a b x hab (hb x hx')
    · rw [if_neg hab]
      refine List.Pairwise.cons ?_ (ih hbs)
      intro x hx
      rcases List.mem_cons.mp ((insertSorted_perm le a bs).mem_iff.mp hx) with heq | hx'
      · rw [heq]; exact (htot a b).resolve_left hab
      · exact hb x hx'

theorem sortBy_pairwise
    (htot : ∀ x y, le x y ∨ le y x)
    (htrans : ∀ x y z, le x y → le y z → le x z) (l : List α) :
    (sortBy le l).Pairwise le := by
  induction l with
  | nil => simp [sortBy]
  | cons a as ih =>
    unfold sortBy
    exact insertSorted_pairwise le htot htrans a _ ih

end SortLemmas

theorem eq_of_perm_of_pairwise {α : Type} {R : α → α → Prop}
    (hasym : ∀ x y, R x y → R y x → False) :
    ∀ (l₁ l₂ : List α), List.Perm l₁ l₂ → l₁.Pairwise R → l₂.Pairwise R → l₁ = l₂ := by
  intro l₁
  induction l₁ with
  | nil =>
    intro l₂ hp _ _
    exact (hp.nil_eq)
  | cons a t₁ ih =>
    intro l₂ hp h₁ h₂
    cases l₂ with
    | nil => exact absurd hp.symm.nil_eq (by simp)
    | cons b t₂ =>
      by_cases hab : a = b
      · subst hab
        rw [ih t₂ hp.cons_inv (List.pairwise_cons.mp h₁).2
          (List.pairwise_cons.mp h₂).2]
      · have ha : a ∈ t₂ := by
          rcases List.mem_cons.mp (hp.mem_iff.mp (List.mem_cons_self a t₁)) with h | h
          · exact absurd h hab
          · exact h
        have hb : b ∈ t₁ := by
          rcases List.mem_cons.mp (hp.symm.mem_iff.mp (List.mem_cons_self b t₂)) with h | h
          · exact absurd h.symm hab
          · exact h
        exact absurd ((List.pairwise_cons.mp h₁).1 b hb)
          (fun h => hasym a b h ((List.pairwise_cons.mp h₂).1 a ha))

theorem pairwise_rel_of_mem {α : Type} {R : α → α → Prop} :
    ∀ {l : List α}, l.Pairwise R → ∀ {a b : α}, a ∈ l → b ∈ l →
      a = b ∨ R a b ∨ R b a := by
  intro l h
  induction h with
  | nil => intro a b ha _; simp at ha
  | cons hhead _ ih =>
    intro a b ha hb
    rcases List.mem_cons.mp ha with rfl | ha' <;>
      rcases List.mem_cons.mp hb with rfl | hb'
    · exact Or.inl rfl
    · exact Or.inr (Or.inl (hhead b hb'))
    · exact Or.inr (Or.inr (hhead a ha'))
    · exact ih ha' hb'

/-- If a list is already strictly ordered by `S` (asymmetric, forcing
`le`, and incompatible with the reverse of `le`), sorting by `le` leaves
it unchanged. -/
theorem sortBy_eq_self {α : Type} (le : α → α → Prop) [DecidableRel le]
    (htot : ∀ x y, le x y ∨ le y x)
    (htrans : ∀ x y z, le x y → le y z → le x z)
    {S : α → α → Prop}
    (hasym : ∀ x y, S x y → S y x → False)
    (hcontra : ∀ x y, le x y → S y x → False)
    (l : List α) (h : l.Pairwise S) : sortBy le l = l := by
  have hperm := sortBy_perm le l
  have hsorted := sortBy_pairwise le htot htrans l
  have hsym : l.Pairwise (fun a b => S a b ∨ S b a) := h.imp Or.inl
  have hsym' : (sortBy le l).Pairwise (fun a b => S a b ∨ S b a) :=
    (hperm.pairwise_iff (fun hab => hab.symm)).mpr hsym
  have hstrict : (sortBy le l).Pairwise S := by
    refine (hsorted.and hsym').imp ?_
    rintro a b ⟨hle, hS | hS⟩
    · exact hS
    · exact absurd hS (fun hS' => hcontra a b hle hS')
  exact eq_of_perm_of_pairwise hasym _ _ hperm hstrict h

namespace EntityMerger

theorem leKey_total : ∀ x y : Entity, leKey x y ∨ leKey y x := by
  intro x y
  rcases Nat.lt_trichotomy x.start y.start with h | h | h
  · exact Or.inl (Or.inl h)
  · rcases le_total y.confidence x.confidence with hc | hc
    · exact Or.inl (Or.inr ⟨h, hc⟩)
    · exact Or.inr (Or.inr ⟨h.symm, hc⟩)
  · exact Or.inr (Or.inl h)

theorem leKey_trans : ∀ x y z : Entity, leKey x y → leKey y z → leKey x z := by
  rintro x y z (h1 | ⟨h1, hc1⟩) (h2 | ⟨h2, hc2⟩)
  · exact Or.inl (h1.trans h2)
  · exact Or.inl (h2 ▸ h1)
  · exact Or.inl (h1 ▸ h2)
  · exact Or.inr ⟨h1.trans h2, hc2.trans hc1⟩

theorem leStart_total : ∀ x y : Entity, leStart x y ∨ leStart y x :=
  fun x y => Nat.le_total x.start y.start

theorem leStart_trans : ∀ x y z : Entity, leStart x y → leStart y z → leStart x z :=
  fun _ _ _ h1 h2 => Nat.le_trans h1 h2

theorem calculate_overlap_comm (a b : Entity) :
    calculate_overlap a b = calculate_overlap b a := by
  unfold calculate_overlap
  rw [Nat.max_comm a.start b.start, Nat.min_comm a.stop b.stop,
    Nat.min_comm (a.stop - a.start) (b.stop - b.start)]

theorem mergeInto_append (e : Entity) (acc : List Entity)
    (h : ∀ x ∈ acc, calculate_overlap e x ≤ 1/2) :
    mergeInto acc e = acc ++ [e] := by
  induction acc with
  | nil => rfl
  | cons x xs ih =>
    unfold mergeInto
    rw [if_neg (not_lt.mpr (h x (List.mem_cons_self x xs)))]
    rw [ih (fun y hy => h y (List.mem_cons_of_mem x hy))]
    rfl

theorem foldl_mergeInto (l acc : List Entity)
    (hcross : ∀ y ∈ l, ∀ x ∈ acc, calculate_overlap y x ≤ 1/2)
    (hpair : l.Pairwise (fun a b => calculate_overlap a b ≤ 1/2)) :
    l.foldl mergeInto acc = acc ++ l := by
  induction l generalizing acc with
  | nil => simp
  | cons e l ih =>
    rw [List.foldl_cons,
      mergeInto_append e acc (hcross e (List.mem_cons_self e l))]
    obtain ⟨hhead, htail⟩ := List.pairwise_cons.mp hpair
    rw [ih (acc ++ [e]) ?_ htail]
    · simp
    · intro y hy x hx
      rcases List.mem_append.mp hx with hx' | hx'
      · exact hcross y (List.mem_cons_of_mem e hy) x hx'
      · have : x = e := by simpa using hx'
        rw [this, calculate_overlap_comm]
        exact hhead y hy

theorem map_clampConf_eq_self (l : List Entity)
    (h : ∀ e ∈ l, e.confidence ≤ 1) : l.map clampConf = l := by
  induction l with
  | nil => rfl
  | cons e es ih =>
    rw [List.map_cons, ih (fun x hx => h x (List.mem_cons_of_mem e hx))]
    have he : clampConf e = e := by
      unfold clampConf
      rw [min_eq_left (h e (List.mem_cons_self e es))]
    rw [he]

theorem merge_confidence_le_one (ls : List (List Entity)) :
    ∀ e ∈ merge ls, e.confidence ≤ 1 := by
  intro e he
  unfold merge mergeAll at he
  by_cases h : ls.flatten = []
  · rw [if_pos h] at he
    simp at he
  · rw [if_neg h] at he
    obtain ⟨x, _, hx⟩ :=
      List.mem_map.mp ((sortBy_perm leStart _).mem_iff.mp he)
    rw [← hx]
    exact min_le_right _ _

/-- If a finished entity list has strictly ascending starts, pairwise
overlap ratios of at most one half, and clamped confidences, then the
merge pipeline leaves it unchanged. -/
theorem mergeAll_eq_self (M : List Entity)
    (h1 : M.Pairwise (fun a b => a.start < b.start))
    (h2 : M.Pairwise (fun a b => calculate_overlap a b ≤ 1/2))
    (h3 : ∀ e ∈ M, e.confidence ≤ 1) :
    mergeAll M = M := by
  by_cases hM : M = []
  · rw [hM]; rfl
  · unfold mergeAll
    rw [if_neg hM]
    rw [sortBy_eq_self leKey leKey_total leKey_trans
      (S := fun a b : Entity => a.start < b.start)
      (fun x y hx hy => Nat.lt_asymm hx hy)
      (fun x y hle hS => by
        have hS' : y.start < x.start := hS
        rcases hle with h | ⟨h, _⟩
        · exact Nat.lt_asymm h hS'
        · omega) M h1]
    unfold merge_overlaps
    rw [foldl_mergeInto M [] (fun y _ x hx => by simp at hx) h2]
    rw [List.nil_append]
    rw [map_clampConf_eq_self M h3]
    exact sortBy_eq_self leStart leStart_total leStart_trans
      (S := fun a b : Entity => a.start < b.start)
      (fun x y hx hy => Nat.lt_asymm hx hy)
      (fun x y hle hS => absurd (Nat.lt_of_lt_of_le hS hle) (Nat.lt_irrefl _))
      M h1

end EntityMerger

section ClaimTheorems

attribute [local semireducible] Rat.mul Rat.inv Rat.add Rat.sub

open EntityMerger in
/-- C1 counterexample: the input `[0,10), [5,15), [8,11)` satisfies the
claim's premises (integer offsets with `0 ≤ start < end`, confidences in
`[0,1]`), yet re-merging the merged output coalesces further, so
`merge(merge(L))` is not content-equal to `merge(L)`. -/
theorem merge_not_idempotent_cex :
    merge [merge [[cexA, cexB, cexC]]] ≠ merge [[cexA, cexB, cexC]]
    ∧ ∀ e ∈ [cexA, cexB, cexC],
        e.start < e.stop ∧ 0 ≤ e.confidence ∧ e.confidence ≤ 1 := by
  exact ⟨by decide, by decide⟩

open EntityMerger in
/-- C1 (amended): consolidation is idempotent on content whenever the
merged output has strictly ascending starts and no residual pair with
overlap ratio above one half; in general a merge that stretched a span
can leave such a residual pair, and re-merging then coalesces further. -/
theorem merge_idempotent_of_separated (L : List Entity)
    (h1 : (merge [L]).Pairwise (fun a b => a.start < b.start))
    (h2 : (merge [L]).Pairwise (fun a b => calculate_overlap a b ≤ 1/2)) :
    merge [merge [L]] = merge [L] := by
  have hflat : ([merge [L]] : List (List Entity)).flatten = merge [L] := by simp
  calc merge [merge [L]] = mergeAll (merge [L]) := by rw [merge, hflat]
    _ = merge [L] := mergeAll_eq_self _ h1 h2 (merge_confidence_le_one [L])

open EntityMerger in
/-- Witness for the amended C1 at a concrete separated input. -/
theorem merge_idempotent_of_separated_witness :
    merge [merge [[sepA, sepB]]] = merge [[sepA, sepB]] :=
  merge_idempotent_of_separated [sepA, sepB] (by decide) (by decide)

open EntityMerger in
/-- C2 counterexample: two single-entity detector lists whose entities
tie on `(start, confidence)` merge to different content in the two
orders (base attributes and the concatenated source tag both flip). -/
theorem merge_order_sensitive_cex :
    merge [[tieRegex], [tieNlp]] ≠ merge [[tieNlp], [tieRegex]] := by
  decide

open EntityMerger in
/-- C2 (amended): consolidation is order-insensitive in its list
arguments provided no two entities of the combined input share both
`start` and `confidence`; on such sort-key ties the result is
order-sensitive. -/
theorem merge_order_insensitive_of_distinct_keys (A B : List Entity)
    (h : (A ++ B).Pairwise
      (fun a b => a.start ≠ b.start ∨ a.confidence ≠ b.confidence)) :
    merge [A, B] = merge [B, A] := by
  have hAB : ([A, B] : List (List Entity)).flatten = A ++ B := by simp
  have hBA : ([B, A] : List (List Entity)).flatten = B ++ A := by simp
  rw [merge, merge, hAB, hBA]
  have hperm : List.Perm (A ++ B) (B ++ A) := List.perm_append_comm
  have hsymm : Symmetric
      (fun a b : Entity => a.start ≠ b.start ∨ a.confidence ≠ b.confidence) :=
    fun _ _ hab => hab.imp Ne.symm Ne.symm
  by_cases hemp : A ++ B = []
  · obtain ⟨ha, hb⟩ := List.append_eq_nil.mp hemp
    rw [ha, hb]
  · have hemp2 : B ++ A ≠ [] := fun hh => by
      obtain ⟨hb, ha⟩ := List.append_eq_nil.mp hh
      exact hemp (by rw [ha, hb]; rfl)
    unfold mergeAll
    rw [if_neg hemp, if_neg hemp2]
    suffices hs : sortBy leKey (A ++ B) = sortBy leKey (B ++ A) by rw [hs]
    have hasym : ∀ x y : Entity,
        (x.start < y.start ∨ (x.start = y.start ∧ y.confidence < x.confidence)) →
        (y.start < x.start ∨ (y.start = x.start ∧ x.confidence < y.confidence)) →
        False := by
      rintro x y (hx | ⟨hxe, hxc⟩) (hy | ⟨hye, hyc⟩)
      · exact Nat.lt_asymm hx hy
      · omega
      · omega
      · exact lt_asymm hxc hyc
    have strictOf : ∀ l : List Entity,
        l.Pairwise leKey →
        l.Pairwise (fun a b => a.start ≠ b.start ∨ a.confidence ≠ b.confidence) →
        l.Pairwise (fun x y =>
          x.start < y.start ∨ (x.start = y.start ∧ y.confidence < x.confidence)) := by
      intro l hle hne
      refine (hle.and hne).imp ?_
      rintro a b ⟨hab, hne'⟩
      rcases hab with hlt | ⟨heq, hcle⟩
      · exact Or.inl hlt
      · rcases hne' with hs | hc
        · exact absurd heq hs
        · exact Or.inr ⟨heq, lt_of_le_of_ne hcle (fun hh => hc hh.symm)⟩
    apply eq_of_perm_of_pairwise hasym
    · exact (sortBy_perm leKey (A ++ B)).trans
        (hperm.trans (sortBy_perm leKey (B ++ A)).symm)
    · exact strictOf _ (sortBy_pairwise leKey leKey_total leKey_trans _)
        (((sortBy_perm leKey (A ++ B)).pairwise_iff
          (R := fun a b : Entity => a.start ≠ b.start ∨ a.confidence ≠ b.confidence)
          (fun hab => hsymm hab)).mpr h)
    · exact strictOf _ (sortBy_pairwise leKey leKey_total leKey_trans _)
        (((sortBy_perm leKey (B ++ A)).pairwise_iff
          (R := fun a b : Entity => a.start ≠ b.start ∨ a.confidence ≠ b.confidence)
          (fun hab => hsymm hab)).mpr
          ((hperm.pairwise_iff
            (R := fun a b : Entity => a.start ≠ b.start ∨ a.confidence ≠ b.confidence)
            (fun hab => hsymm hab)).mp h))

open EntityMerger in
/-- Witness for the amended C2 at a concrete distinct-key overlapping
pair. -/
theorem merge_order_insensitive_witness :
    merge [[dkA], [dkB]] = merge [[dkB], [dkA]] :=
  merge_order_insensitive_of_distinct_keys [dkA] [dkB] (by decide)

open EntityMerger in
/-- C3: merging same-span EMAIL detections with confidences 0.6 and 0.7
from different sources yields one entity with the 0.7 entity's base
attributes, confidence boosted by 0.10 to 0.8, and the source tags
joined with a plus; with equal sources there is no boost and the source
tag is unchanged. -/
theorem merge_confidence_boost :
    merge [[regexEmail06], [nlpEmail07]] =
      [⟨"EMAIL", "a@b.com".toList, 0, 7, 4/5, "nlp+regex", none⟩]
    ∧ merge [[regexEmail06], [sameSrc07]] =
      [⟨"EMAIL", "a@b.com".toList, 0, 7, 7/10, "regex", none⟩] := by
  exact ⟨by decide, by decide⟩

open RedactionEngine in
/-- C4: with strategy `tag_replace`, the two EMAIL entities of
`"a@b.com and c@d.com"` are substituted right-to-left into
`"[EMAIL] and [EMAIL]"`, both returned entities carry
`redacted_value = "[EMAIL]"`, the entity list comes back in ascending
`start` order, and the cache and generator state pass through
untouched. -/
theorem redact_tag_replace_right_to_left {σ : Type}
    (oracle : String → σ → Option (List Char) × σ)
    (hashFn : List Char → List Char) (cache : Cache) (g : σ) :
    redact oracle hashFn "a@b.com and c@d.com".toList [email1, email2]
        "tag_replace" cache g =
      ("[EMAIL] and [EMAIL]".toList,
       [{ email1 with redacted_value := some "[EMAIL]".toList },
        { email2 with redacted_value := some "[EMAIL]".toList }],
       cache, g) := rfl

open VerificationEngine in
/-- Exhausting the retry budget: when every scan of the fixed redacted
text yields residual findings, the loop runs its full fuel and reports
the final failing result. -/
theorem verifyAux_exhaust (rdetect : List Char → List Entity)
    (ndetect : Option (List Char → List Entity)) (text : List Char)
    (hR : residualScan rdetect ndetect text ≠ []) :
    ∀ (fuel attempt : Nat) (r : VerificationResult), 1 ≤ fuel →
      verifyAux rdetect ndetect text fuel attempt r =
        { passed := false,
          residual_entities := residualScan rdetect ndetect text,
          scan_count := attempt + fuel,
          confidence := max 0
            (1 - ((residualScan rdetect ndetect text).length : ℚ) * (1/10)) } := by
  intro fuel
  induction fuel with
  | zero => intro attempt r h; exact absurd h (by omega)
  | succ f ih =>
    intro attempt r _
    simp only [verifyAux]
    rw [if_neg hR]
    rcases Nat.eq_zero_or_pos f with hf | hf
    · subst hf
      rfl
    · rw [ih (attempt + 1) _ hf]
      have harith : attempt + 1 + f = attempt + (f + 1) := by omega
      rw [harith]

open VerificationEngine in
/-- C5 (amended): against a detector reporting at least one non-artifact
finding on every scan of the unchanging redacted text, `verify` with a
positive retry budget performs exactly `max_retries` scans and ends with
`passed = false` and `confidence = max(0, 1 - 0.1 * residual_count)`;
with `max_retries = 0` no scan happens and the default passing result is
returned instead. -/
theorem verify_bounded_retries (rdetect : List Char → List Entity)
    (ndetect : Option (List Char → List Entity)) (text : List Char)
    (max_retries : Nat) (h1 : 1 ≤ max_retries)
    (hR : residualScan rdetect ndetect text ≠ []) :
    verify rdetect ndetect text max_retries =
      { passed := false,
        residual_entities := residualScan rdetect ndetect text,
        scan_count := max_retries,
        confidence := max 0
          (1 - ((residualScan rdetect ndetect text).length : ℚ) * (1/10)) } := by
  unfold verify
  rw [verifyAux_exhaust rdetect ndetect text hR max_retries 0 initResult h1]
  have harith : 0 + max_retries = max_retries := by omega
  rw [harith]

open VerificationEngine in
/-- C5 counterexample: at `max_retries = 0` the pathological detector
still reports a residual finding on any scan, yet `verify` returns
`passed = true`, not the `passed = false` the claim asserts for every
`max_retries`. -/
theorem verify_zero_retries_cex :
    residualScan alwaysFinding none residualText ≠ []
    ∧ (verify alwaysFinding none residualText 0).passed = true := by
  exact ⟨by decide, by decide⟩

open VerificationEngine in
/-- Witness for the amended C5 at a concrete pathological detector and
budget 3. -/
theorem verify_bounded_retries_witness :
    verify alwaysFinding none residualText 3 =
      { passed := false,
        residual_entities := residualScan alwaysFinding none residualText,
        scan_count := 3,
        confidence := max 0
          (1 - ((residualScan alwaysFinding none residualText).length : ℚ) * (1/10)) } :=
  verify_bounded_retries alwaysFinding none residualText 3 (by omega) (by decide)

open VerificationEngine in
/-- C10: a zero retry budget performs no scan at all and vacuously
passes with the default result, whatever the detectors would say about
the text. -/
theorem verify_zero_budget_vacuous_pass (rdetect : List Char → List Entity)
    (ndetect : Option (List Char → List Entity)) (text : List Char) :
    verify rdetect ndetect text 0 =
      { passed := true, residual_entities := [], scan_count := 0,
        confidence := 1 } := rfl

open VerificationEngine in
/-- C6: a candidate whose value is bracket-wrapped, entirely mask
characters, or hash-marker-wrapped, or whose fixed-width context window
contains both tag brackets, is classified as a redaction artifact; and
when every candidate of every available detector is such an artifact,
`verify` passes with confidence 1. -/
theorem verify_artifact_suppression :
    (∀ (e : Entity) (text : List Char),
        ((∃ t, e.value = '[' :: t ++ [']']) ∨
         (∀ c ∈ e.value, c = '█') ∨
         (∃ t, e.value = '#' :: t ++ ['#']) ∨
         ('[' ∈ contextWindow e text ∧ ']' ∈ contextWindow e text)) →
        is_redaction_artifact e text = true)
    ∧ (∀ (rdetect : List Char → List Entity)
         (ndetect : Option (List Char → List Entity))
         (text : List Char) (max_retries : Nat),
         (∀ e ∈ rdetect text, is_redaction_artifact e text = true) →
         (∀ f, ndetect = some f →
            ∀ e ∈ f text, is_redaction_artifact e text = true) →
         (verify rdetect ndetect text max_retries).passed = true ∧
         (verify rdetect ndetect text max_retries).confidence = 1) := by
  constructor
  · intro e text h
    unfold is_redaction_artifact
    rcases h with ⟨t, hv⟩ | hmask | ⟨t, hv⟩ | ⟨hl, hr⟩
    · have hlast : e.value.getLast? = some ']' := by
        rw [hv, show ('[' :: t ++ ([']'] : List Char)) = ('[' :: t) ++ [']'] from rfl,
          List.getLast?_concat]
      have hhead : e.value.head? = some '[' := by rw [hv]; rfl
      simp [hhead, hlast]
    · have hall : e.value.all (fun c => c == '█') = true :=
        List.all_eq_true.mpr (fun c hc => beq_iff_eq.mpr (hmask c hc))
      simp [hall]
    · have hlast : e.value.getLast? = some '#' := by
        rw [hv, show ('#' :: t ++ (['#'] : List Char)) = ('#' :: t) ++ ['#'] from rfl,
          List.getLast?_concat]
      have hhead : e.value.head? = some '#' := by rw [hv]; rfl
      simp [hhead, hlast]
    · have hcl : (contextWindow e text).contains '[' = true := by
        simpa using hl
      have hcr : (contextWindow e text).contains ']' = true := by
        simpa using hr
      simp only [is_redaction_artifact]
      simp
      exact Or.inr ⟨hl, hr⟩
  · intro rdetect ndetect text max_retries h1 h2
    have hres : residualScan rdetect ndetect text = [] := by
      unfold residualScan
      have hr : (rdetect text).filter
          (fun e => !(is_redaction_artifact e text)) = [] :=
        List.filter_eq_nil_iff.mpr (fun e he => by rw [h1 e he]; simp)
      cases ndetect with
      | none => simp [hr]
      | some f =>
        have hf : (f text).filter
            (fun e => !(is_redaction_artifact e text)) = [] :=
          List.filter_eq_nil_iff.mpr (fun e he => by rw [h2 f rfl e he]; simp)
        simp [hr, hf]
    cases max_retries with
    | zero => exact ⟨rfl, rfl⟩
    | succ k =>
      unfold verify
      simp only [verifyAux]
      rw [if_pos hres]
      exact ⟨rfl, rfl⟩

open VerificationEngine in
/-- Witness for C6: the literal `"[EMAIL]"` candidate is an artifact,
and a scan reporting only it passes with confidence 1. -/
theorem verify_artifact_suppression_witness :
    is_redaction_artifact artifactEntity artifactText = true
    ∧ ((verify artifactDetector none artifactText 2).passed = true ∧
       (verify artifactDetector none artifactText 2).confidence = 1) :=
  ⟨verify_artifact_suppression.1 artifactEntity artifactText
     (Or.inl ⟨"EMAIL".toList, rfl⟩),
   verify_artifact_suppression.2 artifactDetector none artifactText 2
     (by decide) (fun f hf => nomatch hf)⟩

open AudioRedactor in
/-- The scan of `_merge_overlapping` starts lower-bound: every emitted
region starts no earlier than the current region. -/
theorem mergeRun_start_lb (rest : List Seg) :
    ∀ (cur : Seg), (cur :: rest).Pairwise leStartMs →
      ∀ r ∈ mergeRun cur rest, cur.start_ms ≤ r.start_ms := by
  induction rest with
  | nil =>
    intro cur _ r hr
    simp [mergeRun] at hr
    rw [hr]
  | cons x rest ih =>
    intro cur hsorted r hr
    obtain ⟨hcur, htail⟩ := List.pairwise_cons.mp hsorted
    unfold mergeRun at hr
    by_cases h : x.start_ms ≤ cur.end_ms
    · rw [if_pos h] at hr
      have hsorted2 : (combineSeg cur x :: rest).Pairwise leStartMs := by
        refine List.pairwise_cons.mpr ⟨?_, (List.pairwise_cons.mp htail).2⟩
        intro y hy
        exact hcur y (List.mem_cons_of_mem x hy)
      exact ih (combineSeg cur x) hsorted2 r hr
    · rw [if_neg h] at hr
      rcases List.mem_cons.mp hr with heq | hr2
      · rw [heq]
      · exact le_trans (hcur x (List.mem_cons_self x rest)) (ih x htail r hr2)

open AudioRedactor in
/-- The regions emitted by the scan of `_merge_overlapping` are strictly
separated: each ends before the next begins. -/
theorem mergeRun_sep (rest : List Seg) :
    ∀ (cur : Seg), (cur :: rest).Pairwise leStartMs →
      (mergeRun cur rest).Pairwise (fun r r2 => r.end_ms < r2.start_ms) := by
  induction rest with
  | nil => intro cur _; simp [mergeRun]
  | cons x rest ih =>
    intro cur hsorted
    obtain ⟨hcur, htail⟩ := List.pairwise_cons.mp hsorted
    unfold mergeRun
    by_cases h : x.start_ms ≤ cur.end_ms
    · rw [if_pos h]
      refine ih (combineSeg cur x) ?_
      refine List.pairwise_cons.mpr ⟨?_, (List.pairwise_cons.mp htail).2⟩
      intro y hy
      exact hcur y (List.mem_cons_of_mem x hy)
    · rw [if_neg h]
      refine List.pairwise_cons.mpr ⟨?_, ih x htail⟩
      intro r hr
      exact lt_of_lt_of_le (not_le.mp h) (mergeRun_start_lb rest x htail r hr)

open AudioRedactor in
/-- Every segment handed to the scan is covered by one emitted region. -/
theorem mergeRun_cover (rest : List Seg) :
    ∀ (cur : Seg), (cur :: rest).Pairwise leStartMs →
      ∀ s, (s = cur ∨ s ∈ rest) →
        ∃ r ∈ mergeRun cur rest,
          r.start_ms ≤ s.start_ms ∧ s.end_ms ≤ r.end_ms := by
  induction rest with
  | nil =>
    intro cur _ s hs
    rcases hs with heq | hmem
    · rw [heq]
      exact ⟨cur, by simp [mergeRun], le_refl _, le_refl _⟩
    · simp at hmem
  | cons x rest ih =>
    intro cur hsorted s hs
    obtain ⟨hcur, htail⟩ := List.pairwise_cons.mp hsorted
    have hsorted2 : (combineSeg cur x :: rest).Pairwise leStartMs := by
      refine List.pairwise_cons.mpr ⟨?_, (List.pairwise_cons.mp htail).2⟩
      intro y hy
      exact hcur y (List.mem_cons_of_mem x hy)
    unfold mergeRun
    by_cases h : x.start_ms ≤ cur.end_ms
    · rw [if_pos h]
      rcases hs with heq | hs2
      · obtain ⟨r, hrmem, h1, h2⟩ :=
          ih (combineSeg cur x) hsorted2 (combineSeg cur x) (Or.inl rfl)
        refine ⟨r, hrmem, ?_, ?_⟩
        · rw [heq]; exact h1
        · rw [heq]; exact le_trans (le_max_left cur.end_ms x.end_ms) h2
      · rcases List.mem_cons.mp hs2 with heq | hs3
        · obtain ⟨r, hrmem, h1, h2⟩ :=
            ih (combineSeg cur x) hsorted2 (combineSeg cur x) (Or.inl rfl)
          refine ⟨r, hrmem, ?_, ?_⟩
          · rw [heq]; exact le_trans h1 (hcur x (List.mem_cons_self x rest))
          · rw [heq]; exact le_trans (le_max_right cur.end_ms x.end_ms) h2
        · exact ih (combineSeg cur x) hsorted2 s (Or.inr hs3)
    · rw [if_neg h]
      rcases hs with heq | hs2
      · rw [heq]
        exact ⟨cur, List.mem_cons_self _ _, le_refl _, le_refl _⟩
      · obtain ⟨r, hrmem, h1, h2⟩ := ih x htail s (by
          rcases List.mem_cons.mp hs2 with heq | hs3
          · exact Or.inl heq
          · exact Or.inr hs3)
        exact ⟨r, List.mem_cons_of_mem cur hrmem, h1, h2⟩

open AudioRedactor in
/-- C7: any two projected audio segments whose time ranges overlap end
up covered by one single merged region, and the concrete instance
`{100,200}, {180,300}` merges to the single region `{100,300}` carrying
the concatenated entity types and values. -/
theorem merge_overlapping_non_fragmentation :
    (∀ (segments : List Seg) (a b : Seg), a ∈ segments → b ∈ segments →
        max a.start_ms b.start_ms ≤ min a.end_ms b.end_ms →
        ∃ r ∈ merge_overlapping segments,
          (r.start_ms ≤ a.start_ms ∧ a.end_ms ≤ r.end_ms) ∧
          (r.start_ms ≤ b.start_ms ∧ b.end_ms ≤ r.end_ms))
    ∧ merge_overlapping [segA, segB] =
        [⟨"A,B", "v1, v2".toList, 1/2, 100, 300⟩] := by
  constructor
  · intro segments a b ha hb hov
    unfold merge_overlapping
    have hperm := sortBy_perm leStartMs segments
    have hsorted := sortBy_pairwise leStartMs
      (fun x y => le_total x.start_ms y.start_ms)
      (fun x y z h1 h2 => le_trans h1 h2) segments
    cases hsort : sortBy leStartMs segments with
    | nil =>
      exfalso
      have hmem : a ∈ sortBy leStartMs segments := hperm.mem_iff.mpr ha
      rw [hsort] at hmem
      simp at hmem
    | cons cur rest =>
      rw [hsort] at hsorted
      have ha2 : a = cur ∨ a ∈ rest := by
        have hmem : a ∈ sortBy leStartMs segments := hperm.mem_iff.mpr ha
        rw [hsort] at hmem
        exact List.mem_cons.mp hmem
      have hb2 : b = cur ∨ b ∈ rest := by
        have hmem : b ∈ sortBy leStartMs segments := hperm.mem_iff.mpr hb
        rw [hsort] at hmem
        exact List.mem_cons.mp hmem
      obtain ⟨ra, hma, ha3, ha4⟩ := mergeRun_cover rest cur hsorted a ha2
      obtain ⟨rb, hmb, hb3, hb4⟩ := mergeRun_cover rest cur hsorted b hb2
      rcases pairwise_rel_of_mem (mergeRun_sep rest cur hsorted) hma hmb with
        heq | hlt | hlt
      · refine ⟨ra, hma, ⟨ha3, ha4⟩, ?_⟩
        rw [heq]
        exact ⟨hb3, hb4⟩
      · exfalso
        have hx1 : b.start_ms ≤ max a.start_ms b.start_ms := le_max_right _ _
        have hx2 : min a.end_ms b.end_ms ≤ a.end_ms := min_le_left _ _
        linarith [hb3, ha4, hov]
      · exfalso
        have hx1 : a.start_ms ≤ max a.start_ms b.start_ms := le_max_left _ _
        have hx2 : min a.end_ms b.end_ms ≤ b.end_ms := min_le_right _ _
        linarith [ha3, hb4, hov]
  · decide

open AudioRedactor in
/-- Witness for C7 at the concrete overlapping pair. -/
theorem merge_overlapping_non_fragmentation_witness :
    ∃ r ∈ merge_overlapping [segA, segB],
      (r.start_ms ≤ segA.start_ms ∧ segA.end_ms ≤ r.end_ms) ∧
      (r.start_ms ≤ segB.start_ms ∧ segB.end_ms ≤ r.end_ms) :=
  merge_overlapping_non_fragmentation.1 [segA, segB] segA segB
    (by decide) (by decide) (by decide)

open AudioRedactor in
/-- C8: an entity whose span matches no transcribed word produces no
audio segment (hence no beep region and no audit row), the remaining
entities are mapped exactly as if it were absent, and the transcript
builder still replaces its span with the bracketed entity-type tag. -/
theorem mapping_miss_observable (words : List Word) (full_text : List Char)
    (e : Entity) (l1 l2 : List Entity)
    (hmiss : matchedWords full_text e.start e.stop words 0 = []) :
    segOf words full_text e = none
    ∧ map_pii_to_timestamps (l1 ++ e :: l2) words full_text =
        map_pii_to_timestamps (l1 ++ l2) words full_text
    ∧ build_redacted_transcript full_text [e] =
        full_text.take e.start ++ '[' :: e.entity_type.toList ++ [']'] ++
          full_text.drop e.stop := by
  have hseg : segOf words full_text e = none := by
    unfold segOf
    rw [hmiss]
  refine ⟨hseg, ?_, ?_⟩
  · unfold map_pii_to_timestamps
    rw [List.filterMap_append, List.filterMap_append]
    simp [List.filterMap_cons, hseg]
  · rfl

open AudioRedactor in
/-- Witness for C8: the PHONE entity at offsets 20-25 matches no word of
"hello bob", is dropped from the segment list without disturbing the
PERSON_NAME entity, and still shows up as a tag in the transcript. -/
theorem mapping_miss_observable_witness :
    segOf [wordHello, wordBob] missText missEntity = none
    ∧ map_pii_to_timestamps ([hitEntity] ++ missEntity :: [])
        [wordHello, wordBob] missText =
      map_pii_to_timestamps ([hitEntity] ++ []) [wordHello, wordBob] missText
    ∧ build_redacted_transcript missText [missEntity] =
        missText.take missEntity.start ++
          '[' :: missEntity.entity_type.toList ++ [']'] ++
          missText.drop missEntity.stop :=
  mapping_miss_observable [wordHello, wordBob] missText missEntity
    [hitEntity] [] (by decide)

open RedactionEngine in
/-- Application of any strategy never drops an existing cache binding:
`anonymize` only ever inserts fresh keys and the other strategies leave
the cache alone. -/
theorem lookup_applyStrategy {σ : Type}
    (oracle : String → σ → Option (List Char) × σ)
    (hashFn : List Char → List Char) (strategy : String) (entity : Entity)
    (cache : Cache) (g : σ) (key v : List Char)
    (hkv : cache.lookup key = some v) :
    ((applyStrategy oracle hashFn strategy entity cache g).2.1).lookup key
      = some v := by
  unfold applyStrategy
  by_cases h1 : strategy = "mask"
  · rw [if_pos h1]; exact hkv
  rw [if_neg h1]
  by_cases h2 : strategy = "tag_replace"
  · rw [if_pos h2]; exact hkv
  rw [if_neg h2]
  by_cases h3 : strategy = "anonymize"
  · rw [if_pos h3]
    unfold anonymize
    cases hc : cache.lookup (cacheKey entity) with
    | some w => simp only [hc]; exact hkv
    | none =>
      simp only [hc]
      have hne : (key == cacheKey entity) = false := by
        refine beq_eq_false_iff_ne.mpr ?_
        intro heq
        rw [heq, hc] at hkv
        exact Option.noConfusion hkv
      simp [List.lookup, hne, hkv]
  · rw [if_neg h3]
    by_cases h4 : strategy = "hash"
    · rw [if_pos h4]; exact hkv
    · rw [if_neg h4]; exact hkv

open RedactionEngine in
/-- The substitution loop of `redact` preserves existing cache
bindings. -/
theorem lookup_foldl_redactStep {σ : Type}
    (oracle : String → σ → Option (List Char) × σ)
    (hashFn : List Char → List Char) (strategy : String) (key v : List Char) :
    ∀ (ents : List Entity) (t : List Char) (u : List Entity)
      (cache : Cache) (g : σ),
      cache.lookup key = some v →
      ((ents.foldl (redactStep oracle hashFn strategy)
          (t, u, cache, g)).2.2.1).lookup key = some v := by
  intro ents
  induction ents with
  | nil => intro t u cache g hkv; exact hkv
  | cons e es ih =>
    intro t u cache g hkv
    rw [List.foldl_cons]
    exact ih _ _ _ _
      (lookup_applyStrategy oracle hashFn strategy e cache g key v hkv)

open RedactionEngine in
/-- C9: within one engine instance, a second `anonymize` of the same
`(entity_type, value)` returns the synthetic value cached by the first
whatever the generator state does; `redact` calls preserve every
existing cache binding; and only `clear_cache` empties the mapping. -/
theorem anonymize_cache_deterministic {σ : Type}
    (oracle : String → σ → Option (List Char) × σ) (e : Entity)
    (cache : Cache) (g : σ) :
    ((anonymize oracle e (anonymize oracle e cache g).2.1
        (anonymize oracle e cache g).2.2).1 = (anonymize oracle e cache g).1)
    ∧ (∀ (hashFn : List Char → List Char) (text : List Char)
         (ents : List Entity) (strategy : String) (key v : List Char),
         cache.lookup key = some v →
         ((redact oracle hashFn text ents strategy cache g).2.2.1).lookup key
           = some v)
    ∧ (∀ key : List Char, (clear_cache cache).lookup key = none) := by
  refine ⟨?_, ?_, ?_⟩
  · cases hc : cache.lookup (cacheKey e) with
    | some w => simp [anonymize, hc]
    | none => simp [anonymize, hc, List.lookup]
  · intro hashFn text ents strategy key v hkv
    unfold redact
    by_cases hents : ents = []
    · rw [if_pos hents]; exact hkv
    · rw [if_neg hents]
      exact lookup_foldl_redactStep oracle hashFn strategy key v _ text []
        cache g hkv
  · intro key
    rfl

open RedactionEngine in
/-- Witness for C9 at a concrete oracle, entity and pre-seeded cache. -/
theorem anonymize_cache_deterministic_witness :
    ((anonymize unitOracle hitEntity
        (anonymize unitOracle hitEntity seededCache ()).2.1
        (anonymize unitOracle hitEntity seededCache ()).2.2).1 =
      (anonymize unitOracle hitEntity seededCache ()).1)
    ∧ ((redact unitOracle unitHash missText [hitEntity] "anonymize"
          seededCache ()).2.2.1).lookup "K".toList = some "V".toList :=
  ⟨(anonymize_cache_deterministic unitOracle hitEntity seededCache ()).1,
   (anonymize_cache_deterministic unitOracle hitEntity seededCache ()).2.1
     unitHash missText [hitEntity] "anonymize" "K".toList "V".toList
     (by decide)⟩

end ClaimTheorems
